import Mathlib

/-!
Verification of the `Corrade::Interconnect::StateMachine` component
(`src/Interconnect/StateMachine.h`): a compile-time-sized finite state
machine with an `S × I` transition table stored as a flat array, a current
state, bulk configuration via `addTransitions`, a `step` operation and
per-state `entered`/`exited` notification identities dispatched by a
descending unrolled search.

States and inputs are modelled by their `Nat` ordinals (the header requires
the enums to have consecutive values starting from `0`); the flat table is a
`List Nat` indexed exactly as the source's `at()` helper, and triggered
signals are recorded as a list of `Notification` values in emission order.
-/

namespace Corrade

/-- `StateTransition<State, Input>`: a triple `(from, input, to)` describing
one cell of the table (`from` is spelled `from_` because `from` is a Lean
keyword). -/
structure StateTransition where
  from_ : Nat
  input : Nat
  to_ : Nat
deriving DecidableEq

/-- The data of `StateMachine<states, inputs, State, Input>`: the flat
transition table `_transitions` of intended length `S * I` (cell `(s, i)`
stored at index `s * I + i`, as in the private `at()` accessor) and the
current state `_current`. -/
structure StateMachine (S I : Nat) where
  transitions : List Nat
  current : Nat
deriving DecidableEq

variable {S I : Nat}

/-- The private `at()` accessor: `_transitions[size_t(current)*inputs +
size_t(input)]`.  The C++ indexes a raw array; the `getD` default `0` is
returned only for an index past the end, which is undefined behaviour in the
source and never exercised by the in-range claims. -/
def StateMachine.tableAt (m : StateMachine S I) (s i : Nat) : Nat :=
  m.transitions.getD (s * I + i) 0

/-- The `StateMachine()` constructor: `_transitions{}` zero-initialises the
array, `_current{}` is state `0`, then the constructor loops over every state
`i` and input `j` doing `at(State(i), Input(j)) = State(i)` (all inputs are
no-ops). -/
def StateMachine.init (S I : Nat) : StateMachine S I :=
  { transitions :=
      (List.range S).foldl
        (fun t i => (List.range I).foldl (fun t j => t.set (i * I + j) i) t)
        (List.replicate (S * I) 0),
    current := 0 }

/-- One iteration of the `addTransitions` loop body after a successful range
check: `at(transition.from, transition.input) = transition.to_`. -/
def StateMachine.setCell (m : StateMachine S I) (t : StateTransition) : StateMachine S I :=
  { m with transitions := m.transitions.set (t.from_ * I + t.input) t.to_ }

/-- The `CORRADE_ASSERT` condition checked for each supplied transition:
`size_t(from) < states && size_t(input) < inputs && size_t(to) < states`. -/
def StateTransition.inRange (S I : Nat) (t : StateTransition) : Bool :=
  decide (t.from_ < S) && decide (t.input < I) && decide (t.to_ < S)

/-- Modelled from the spec: the failure behaviour of `CORRADE_ASSERT`
(Utility/Assert.h is not among the sources) — per the spec an out-of-range
transition is a fatal configuration error that is reported at the boundary
and stops processing, leaving the table possibly partial.  The rest is
`StateMachine::addTransitions` transcribed from the source: iterate over the
supplied list, check the range condition for each transition, and overwrite
the table cell `(from, input)` with `to`.  The `Bool` component records
whether the call completed without a configuration error. -/
def StateMachine.addTransitions (m : StateMachine S I) :
    List StateTransition → StateMachine S I × Bool
  | [] => (m, true)
  | t :: rest =>
    if t.inRange S I then (m.setCell t).addTransitions rest
    else (m, false)

/-- A triggered signal: the `entered<State>` or `exited<State>` notification
identity for the state with the given ordinal. -/
inductive Notification where
  | entered (s : Nat)
  | exited (s : Nat)
deriving DecidableEq

/-- `StateMachine::enteredInternal`: the compile-time-unrolled descending
search.  At level `k + 1` (template parameter `current`) it compares
`State(current - 1)` with `wanted`; on match it emits
`entered<State(current - 1)>`, otherwise it recurses to level `k`.  The
level-`0` overload is `CORRADE_ASSERT_UNREACHABLE()`, modelled as `none`. -/
def enteredInternal (wanted : Nat) : Nat → Option Notification
  | 0 => none
  | k + 1 => if k = wanted then some (.entered k) else enteredInternal wanted k

/-- `StateMachine::exitedInternal`: same descending search as
`enteredInternal`, emitting the `exited<State>` identity family. -/
def exitedInternal (wanted : Nat) : Nat → Option Notification
  | 0 => none
  | k + 1 => if k = wanted then some (.exited k) else exitedInternal wanted k

/-- `StateMachine::step`: look up `next = at(_current, input)`; if `next`
differs from `_current`, run `exitedInternal(_current, states)`, then assign
`_current = next`, then run `enteredInternal(next, states)`.  The result is
the updated machine together with the triggered notification identities in
emission order. -/
def StateMachine.step (m : StateMachine S I) (input : Nat) :
    StateMachine S I × List Notification :=
  let next := m.tableAt m.current input
  if next ≠ m.current then
    ({ m with current := next },
      (exitedInternal m.current S).toList ++ (enteredInternal next S).toList)
  else (m, [])

/-- The table/state invariant of the spec: the table has exactly `S * I`
cells, every cell holds a state ordinal in `[0, S)`, and the current state is
in `[0, S)`. -/
def StateMachine.WellFormed (m : StateMachine S I) : Prop :=
  m.transitions.length = S * I ∧ (∀ v ∈ m.transitions, v < S) ∧ m.current < S

instance (m : StateMachine S I) : Decidable m.WellFormed := by
  unfold StateMachine.WellFormed; infer_instance

/-- One operation of the machine's public mutating interface. -/
inductive Op where
  | add (ts : List StateTransition)
  | doStep (i : Nat)
deriving DecidableEq

/-- Apply one public operation to a machine, keeping only the machine (the
error flag of `addTransitions` and the notifications of `step` are dropped
here; they are studied by their own claims). -/
def StateMachine.applyOp (m : StateMachine S I) : Op → StateMachine S I
  | .add ts => (m.addTransitions ts).1
  | .doStep i => (m.step i).1

/-- An operation whose arguments are in range for an `S × I` machine: every
supplied transition satisfies the range check, respectively the stepped input
is a valid input ordinal. -/
def Op.InRange (S I : Nat) : Op → Prop
  | .add ts => ∀ t ∈ ts, t.inRange S I = true
  | .doStep i => i < I

instance (S I : Nat) (op : Op) : Decidable (op.InRange S I) := by
  cases op <;> (unfold Op.InRange; infer_instance)

/-! ### Generic facts about folds of element writes -/

theorem foldl_length_eq {α β : Type} (f : List α → β → List α)
    (hf : ∀ t b, (f t b).length = t.length) :
    ∀ (l : List β) (t : List α), (l.foldl f t).length = t.length := by
  intro l
  induction l with
  | nil => intro t; rfl
  | cons b l ih => intro t; rw [List.foldl_cons, ih, hf]

theorem foldl_getElem?_frame {α β : Type} (f : List α → β → List α) (k : Nat) :
    ∀ (l : List β) (t : List α),
      (∀ t b, b ∈ l → (f t b)[k]? = t[k]?) → (l.foldl f t)[k]? = t[k]? := by
  intro l
  induction l with
  | nil => intro t _; rfl
  | cons b l ih =>
      intro t h
      rw [List.foldl_cons,
        ih (f t b) (fun t' b' hb' => h t' b' (List.mem_cons_of_mem _ hb')),
        h t b (List.mem_cons_self b l)]

/-! ### Arithmetic of the flat `s * I + i` table index -/

theorem rowIndex_lt {s j : Nat} (hs : s < S) (hj : j < I) : s * I + j < S * I := by
  have h1 : s * I + j < (s + 1) * I := by rw [Nat.succ_mul]; omega
  have h2 : (s + 1) * I ≤ S * I := Nat.mul_le_mul_right I hs
  omega

theorem rowIndex_ne {s i j j' : Nat} (hj : j < I) (hj' : j' < I) (hne : i ≠ s) :
    i * I + j' ≠ s * I + j := by
  rcases Nat.lt_or_ge i s with h | h
  · have := rowIndex_lt (S := s) h hj'
    omega
  · have hs : s < i := Nat.lt_of_le_of_ne h (Ne.symm hne)
    have := rowIndex_lt (S := i) hs hj
    omega

theorem rowIndex_inj {f f' i i' : Nat} (hi : i < I) (hi' : i' < I)
    (h : f * I + i = f' * I + i') : f = f' ∧ i = i' := by
  by_cases hf : f = f'
  · subst hf
    omega
  · exact absurd h (rowIndex_ne hi' hi hf)

/-! ### The constructor's table -/

theorem innerFold_getElem?_ne (t : List Nat) (i k : Nat)
    (hk : ∀ j, j < I → k ≠ i * I + j) :
    ((List.range I).foldl (fun t j => t.set (i * I + j) i) t)[k]? = t[k]? :=
  foldl_getElem?_frame _ k _ t (fun _ j hj =>
    List.getElem?_set_ne (Ne.symm (hk j (List.mem_range.mp hj))))

theorem innerFold_getElem?_eq (t : List Nat) (i j : Nat) (hj : j < I)
    (hlen : i * I + j < t.length) :
    ((List.range I).foldl (fun t j' => t.set (i * I + j') i) t)[i * I + j]? = some i := by
  have hsplit : List.range I =
      List.range (j + 1) ++ (List.range (I - (j + 1))).map ((j + 1) + ·) := by
    rw [← List.range_add]
    congr 1
    omega
  rw [hsplit, List.foldl_append]
  have hfr := foldl_getElem?_frame (fun t j' => t.set (i * I + j') i) (i * I + j)
      ((List.range (I - (j + 1))).map ((j + 1) + ·))
      ((List.range (j + 1)).foldl (fun t j' => t.set (i * I + j') i) t)
      (fun t' b hb => by
        rcases List.mem_map.mp hb with ⟨x, _, hxb⟩
        exact List.getElem?_set_ne
          (fun h => absurd (Nat.add_left_cancel h) (by omega)))
  rw [hfr, List.range_succ, List.foldl_append]
  simp only [List.foldl_cons, List.foldl_nil]
  have hlen' : ((List.range j).foldl (fun t j' => t.set (i * I + j') i) t).length
      = t.length :=
    foldl_length_eq _ (fun t' j' => List.length_set t' _ _) _ t
  exact List.getElem?_set_self (by rw [hlen']; exact hlen)

theorem init_transitions_length : (StateMachine.init S I).transitions.length = S * I := by
  have h : ∀ (t : List Nat) (i : Nat),
      ((List.range I).foldl (fun t j => t.set (i * I + j) i) t).length = t.length :=
    fun t i => foldl_length_eq _ (fun t' j => List.length_set t' _ _) _ t
  show ((List.range S).foldl _ (List.replicate (S * I) 0)).length = S * I
  rw [foldl_length_eq _ h, List.length_replicate]

theorem init_transitions_getElem? {s j : Nat} (hs : s < S) (hj : j < I) :
    (StateMachine.init S I).transitions[s * I + j]? = some s := by
  have hsplit : List.range S =
      List.range (s + 1) ++ (List.range (S - (s + 1))).map ((s + 1) + ·) := by
    rw [← List.range_add]
    congr 1
    omega
  have hilen : ∀ (t : List Nat) (i : Nat),
      ((List.range I).foldl (fun t j' => t.set (i * I + j') i) t).length = t.length :=
    fun t i => foldl_length_eq _ (fun t' j' => List.length_set t' _ _) _ t
  show ((List.range S).foldl
    (fun t i => (List.range I).foldl (fun t j' => t.set (i * I + j') i) t)
    (List.replicate (S * I) 0))[s * I + j]? = some s
  rw [hsplit, List.foldl_append]
  have hfr := foldl_getElem?_frame
      (fun t i => (List.range I).foldl (fun t j' => t.set (i * I + j') i) t)
      (s * I + j)
      ((List.range (S - (s + 1))).map ((s + 1) + ·))
      ((List.range (s + 1)).foldl
        (fun t i => (List.range I).foldl (fun t j' => t.set (i * I + j') i) t)
        (List.replicate (S * I) 0))
      (fun t' b hb => by
        rcases List.mem_map.mp hb with ⟨x, _, hxb⟩
        exact innerFold_getElem?_ne t' b _ (fun j' hj' =>
          Ne.symm (rowIndex_ne hj hj' (by omega))))
  rw [hfr, List.range_succ, List.foldl_append]
  simp only [List.foldl_cons, List.foldl_nil]
  apply innerFold_getElem?_eq _ s j hj
  rw [foldl_length_eq _ hilen, List.length_replicate]
  exact rowIndex_lt hs hj

theorem init_transitions_mem_lt {v : Nat} (hv : v ∈ (StateMachine.init S I).transitions) :
    v < S := by
  rcases List.mem_iff_getElem?.mp hv with ⟨n, hn⟩
  have hnlen : n < S * I := by
    have h := (List.getElem?_eq_some_iff.mp hn).1
    rwa [init_transitions_length] at h
  have hIpos : 0 < I := by
    rcases Nat.eq_zero_or_pos I with h | h
    · subst h
      omega
    · exact h
  have h1 : n / I < S := (Nat.div_lt_iff_lt_mul hIpos).mpr hnlen
  have h2 : n % I < I := Nat.mod_lt _ hIpos
  have hdm : n = n / I * I + n % I := by
    rw [Nat.mul_comm]
    exact (Nat.div_add_mod n I).symm
  rw [hdm] at hn
  have := init_transitions_getElem? h1 h2
  rw [hn] at this
  have hv' : v = n / I := by injection this
  omega

theorem init_wellFormed (hS : 0 < S) : (StateMachine.init S I).WellFormed :=
  ⟨init_transitions_length, fun _ hv => init_transitions_mem_lt hv, hS⟩

/-! ### The descending notification dispatch -/

theorem enteredInternal_eq {w k : Nat} (h : w < k) :
    enteredInternal w k = some (Notification.entered w) := by
  induction k with
  | zero => omega
  | succ k ih =>
      by_cases hk : k = w
      · subst hk
        simp [enteredInternal]
      · have hw : w < k := by omega
        simp [enteredInternal, hk, ih hw]

theorem exitedInternal_eq {w k : Nat} (h : w < k) :
    exitedInternal w k = some (Notification.exited w) := by
  induction k with
  | zero => omega
  | succ k ih =>
      by_cases hk : k = w
      · subst hk
        simp [exitedInternal]
      · have hw : w < k := by omega
        simp [exitedInternal, hk, ih hw]

/-! ### `addTransitions` as a fold over the accepted prefix -/

theorem addTransitions_eq_foldl (ts : List StateTransition) :
    ∀ m : StateMachine S I,
      m.addTransitions ts =
        ((ts.takeWhile (StateTransition.inRange S I)).foldl StateMachine.setCell m,
          ts.all (StateTransition.inRange S I)) := by
  induction ts with
  | nil => intro m; rfl
  | cons t rest ih =>
      intro m
      by_cases h : t.inRange S I = true
      · simp [StateMachine.addTransitions, h, ih]
      · have h' : t.inRange S I = false := by simpa using h
        simp [StateMachine.addTransitions, h']

theorem addTransitions_all_inRange (ts : List StateTransition)
    (h : ∀ t ∈ ts, t.inRange S I = true) :
    ∀ m : StateMachine S I, m.addTransitions ts = (ts.foldl StateMachine.setCell m, true) := by
  induction ts with
  | nil => intro m; rfl
  | cons t rest ih =>
      intro m
      have ht := h t (List.mem_cons_self t rest)
      simp only [StateMachine.addTransitions, ht, if_pos, List.foldl_cons]
      exact ih (fun u hu => h u (List.mem_cons_of_mem _ hu)) (m.setCell t)

theorem addTransitions_fst_all_inRange (ts : List StateTransition)
    (h : ∀ t ∈ ts, t.inRange S I = true) (m : StateMachine S I) :
    (m.addTransitions ts).1 = ts.foldl StateMachine.setCell m := by
  rw [addTransitions_all_inRange ts h m]

theorem inRange_bounds {t : StateTransition} (h : t.inRange S I = true) :
    t.from_ < S ∧ t.input < I ∧ t.to_ < S := by
  simp only [StateTransition.inRange, Bool.and_eq_true, decide_eq_true_eq] at h
  exact ⟨h.1.1, h.1.2, h.2⟩

theorem addTransitions_fst_current (ts : List StateTransition) :
    ∀ m : StateMachine S I, ((m.addTransitions ts).1).current = m.current := by
  induction ts with
  | nil => intro m; rfl
  | cons t rest ih =>
      intro m
      by_cases h : t.inRange S I = true
      · simp only [StateMachine.addTransitions, h, if_pos]
        exact ih (m.setCell t)
      · have h' : t.inRange S I = false := by simpa using h
        simp [StateMachine.addTransitions, h']

theorem foldl_setCell_current (ts : List StateTransition) :
    ∀ m : StateMachine S I, (ts.foldl StateMachine.setCell m).current = m.current := by
  induction ts with
  | nil => intro m; rfl
  | cons t rest ih => intro m; exact ih (m.setCell t)

theorem foldl_setCell_length (ts : List StateTransition) :
    ∀ m : StateMachine S I,
      (ts.foldl StateMachine.setCell m).transitions.length = m.transitions.length := by
  induction ts with
  | nil => intro m; rfl
  | cons t rest ih =>
      intro m
      rw [List.foldl_cons, ih]
      exact List.length_set m.transitions _ _

theorem foldl_setCell_getElem? (ts : List StateTransition) :
    ∀ (m : StateMachine S I) (k : Nat),
      (ts.foldl StateMachine.setCell m).transitions[k]? =
        match ts.reverse.find? (fun t => decide (t.from_ * I + t.input = k)) with
        | some t => if k < m.transitions.length then some t.to_ else none
        | none => m.transitions[k]? := by
  induction ts with
  | nil => intro m k; rfl
  | cons t rest ih =>
      intro m k
      rw [List.foldl_cons, ih (m.setCell t) k]
      have hlen : (m.setCell t).transitions.length = m.transitions.length :=
        List.length_set m.transitions _ _
      rw [List.reverse_cons, List.find?_append]
      cases hfind : rest.reverse.find? (fun t => decide (t.from_ * I + t.input = k)) with
      | some u => simp [hlen]
      | none =>
          simp only [Option.none_or]
          by_cases hp : t.from_ * I + t.input = k
          · rw [List.find?_cons_of_pos (p := fun u : StateTransition => decide (u.from_ * I + u.input = k)) _
              (decide_eq_true hp)]
            subst hp
            show (m.transitions.set (t.from_ * I + t.input) t.to_)[t.from_ * I + t.input]? =
              if t.from_ * I + t.input < m.transitions.length then some t.to_ else none
            by_cases hk : t.from_ * I + t.input < m.transitions.length
            · rw [List.getElem?_set_self hk, if_pos hk]
            · rw [if_neg hk, List.getElem?_eq_none]
              rw [List.length_set]
              omega
          · rw [List.find?_cons_of_neg (p := fun u : StateTransition => decide (u.from_ * I + u.input = k)) _
              (fun h => hp (of_decide_eq_true h)), List.find?_nil]
            show (m.transitions.set (t.from_ * I + t.input) t.to_)[k]? = _
            rw [List.getElem?_set_ne hp]

/-! ### Preservation of the table/state invariant -/

theorem tableAt_lt (m : StateMachine S I) (hwf : m.WellFormed) {s i : Nat}
    (hs : s < S) (hi : i < I) : m.tableAt s i < S := by
  have hidx : s * I + i < m.transitions.length := by
    rw [hwf.1]
    exact rowIndex_lt hs hi
  unfold StateMachine.tableAt
  rw [List.getD_eq_getElem?_getD, List.getElem?_eq_getElem hidx]
  simp only [Option.getD_some]
  exact hwf.2.1 _ (List.getElem_mem hidx)

theorem setCell_wellFormed (m : StateMachine S I) (hwf : m.WellFormed)
    (t : StateTransition) (ht : t.inRange S I = true) : (m.setCell t).WellFormed := by
  have hto : t.to_ < S := by
    simp only [StateTransition.inRange, Bool.and_eq_true, decide_eq_true_eq] at ht
    exact ht.2
  refine ⟨?_, ?_, hwf.2.2⟩
  · rw [StateMachine.setCell]
    simp only [List.length_set]
    exact hwf.1
  · intro v hv
    rcases List.mem_or_eq_of_mem_set hv with h | h
    · exact hwf.2.1 v h
    · omega

theorem step_fst_wellFormed (m : StateMachine S I) (hwf : m.WellFormed) {i : Nat}
    (hi : i < I) : ((m.step i).1).WellFormed := by
  unfold StateMachine.step
  by_cases h : m.tableAt m.current i ≠ m.current
  · rw [if_pos h]
    exact ⟨hwf.1, hwf.2.1, tableAt_lt m hwf hwf.2.2 hi⟩
  · rw [if_neg h]
    exact hwf

theorem foldl_setCell_wellFormed (ts : List StateTransition)
    (h : ∀ t ∈ ts, t.inRange S I = true) :
    ∀ m : StateMachine S I, m.WellFormed → (ts.foldl StateMachine.setCell m).WellFormed := by
  induction ts with
  | nil => intro m hwf; exact hwf
  | cons t rest ih =>
      intro m hwf
      rw [List.foldl_cons]
      exact ih (fun u hu => h u (List.mem_cons_of_mem _ hu)) (m.setCell t)
        (setCell_wellFormed m hwf t (h t (List.mem_cons_self t rest)))

theorem applyOp_wellFormed (m : StateMachine S I) (hwf : m.WellFormed)
    (op : Op) (hop : op.InRange S I) : (m.applyOp op).WellFormed := by
  cases op with
  | add ts =>
      show ((m.addTransitions ts).1).WellFormed
      rw [addTransitions_all_inRange ts hop]
      exact foldl_setCell_wellFormed ts hop m hwf
  | doStep i => exact step_fst_wellFormed m hwf hop

theorem foldl_applyOp_wellFormed (ops : List Op) :
    ∀ m : StateMachine S I, m.WellFormed → (∀ op ∈ ops, op.InRange S I) →
      (ops.foldl StateMachine.applyOp m).WellFormed := by
  induction ops with
  | nil => intro m hwf _; exact hwf
  | cons op rest ih =>
      intro m hwf hops
      rw [List.foldl_cons]
      exact ih _ (applyOp_wellFormed m hwf op (hops op (List.mem_cons_self op rest)))
        (fun o ho => hops o (List.mem_cons_of_mem _ ho))

/-! ### Claim theorems -/

/-- C1: for every well-formed machine state and every in-range input whose
table cell `next` differs from the current state, `step` triggers exactly the
`exited` identity of the old current state, updates the current state to
`next`, and triggers exactly the `entered` identity of `next`, in that order
and no other identity. -/
theorem step_transition_notifications (m : StateMachine S I) (hwf : m.WellFormed)
    (i : Nat) (hi : i < I) (hne : m.tableAt m.current i ≠ m.current) :
    m.step i = ({ m with current := m.tableAt m.current i },
      [Notification.exited m.current, Notification.entered (m.tableAt m.current i)]) := by
  have hnext : m.tableAt m.current i < S := tableAt_lt m hwf hwf.2.2 hi
  unfold StateMachine.step
  rw [if_pos hne, exitedInternal_eq hwf.2.2, enteredInternal_eq hnext]
  rfl

/-- Witness for C1: a two-state machine with table `[1, 0]` steps from state
`0` to state `1`, emitting exactly exited-0 then entered-1. -/
theorem step_transition_notifications_witness :
    StateMachine.step (S := 2) (I := 1) ⟨[1, 0], 0⟩ 0 =
      (⟨[1, 0], 1⟩, [Notification.exited 0, Notification.entered 1]) :=
  step_transition_notifications ⟨[1, 0], 0⟩ (by decide) 0 (by decide) (by decide)

/-- C2: stepping on an input whose table cell equals the current state leaves
the machine unchanged and triggers zero notifications, and a freshly
constructed machine is inert for every valid input. -/
theorem step_noop_silent (m : StateMachine S I) (i : Nat)
    (hcell : m.tableAt m.current i = m.current) {j : Nat} (hj : j < I) :
    m.step i = (m, []) ∧
      (StateMachine.init S I).step j = (StateMachine.init S I, []) := by
  constructor
  · unfold StateMachine.step
    rw [if_neg (show ¬m.tableAt m.current i ≠ m.current from fun h => h hcell)]
  · have h0 : (StateMachine.init S I).tableAt 0 j = 0 := by
      rcases Nat.eq_zero_or_pos S with hS | hS
      · have hnil : (StateMachine.init S I).transitions = [] := by
          have hl := init_transitions_length (S := S) (I := I)
          subst hS
          rw [Nat.zero_mul] at hl
          exact List.length_eq_zero.mp hl
        unfold StateMachine.tableAt
        rw [hnil]
        rfl
      · have hq := init_transitions_getElem? hS hj
        unfold StateMachine.tableAt
        rw [List.getD_eq_getElem?_getD, hq]
        rfl
    unfold StateMachine.step
    rw [if_neg (show ¬(StateMachine.init S I).tableAt (StateMachine.init S I).current j ≠
      (StateMachine.init S I).current from fun h => h h0)]

/-- Witness for C2: a two-state, two-input machine whose `(0, 1)` cell is the
state `0` itself does not move or notify on input `1`, and neither does the
freshly constructed `2 × 2` machine. -/
theorem step_noop_silent_witness :
    StateMachine.step (S := 2) (I := 2) ⟨[0, 0, 1, 1], 0⟩ 1 = (⟨[0, 0, 1, 1], 0⟩, []) ∧
      (StateMachine.init 2 2).step 1 = (StateMachine.init 2 2, []) :=
  step_noop_silent ⟨[0, 0, 1, 1], 0⟩ 1 (by decide) (by decide)

/-- C3: after construction of an `S × I` machine, every table cell `(s, i)`
holds the state `s` itself (identity self-loop) and the current state is the
ordinal-`0` state. -/
theorem init_table_identity (S I : Nat) {s i : Nat} (hs : s < S) (hi : i < I) :
    (StateMachine.init S I).transitions[s * I + i]? = some s ∧
      (StateMachine.init S I).current = 0 :=
  ⟨init_transitions_getElem? hs hi, rfl⟩

/-- Witness for C3: in the fresh `2 × 3` machine the cell of state `1` and
input `2` holds state `1`, and the current state is `0`. -/
theorem init_table_identity_witness :
    (StateMachine.init 2 3).transitions[1 * 3 + 2]? = some 1 ∧
      (StateMachine.init 2 3).current = 0 :=
  init_table_identity 2 3 (by decide) (by decide)

/-- C4: starting from a freshly constructed machine, any sequence of
`addTransitions` calls with in-range triples and `step` calls with in-range
inputs keeps the table full of valid states in `[0, S)` and the current state
in `[0, S)` (in particular after every prefix of the sequence, since every
prefix of a valid sequence is itself a valid sequence). -/
theorem ops_preserve_invariant (S I : Nat) (hS : 0 < S) (ops : List Op)
    (hops : ∀ op ∈ ops, op.InRange S I) :
    (ops.foldl StateMachine.applyOp (StateMachine.init S I)).WellFormed :=
  foldl_applyOp_wellFormed ops _ (init_wellFormed hS) hops

/-- Witness for C4: configuring one transition and stepping once on a `2 × 1`
machine leaves it well-formed. -/
theorem ops_preserve_invariant_witness :
    (([Op.add [(⟨0, 0, 1⟩ : StateTransition)], Op.doStep 0]).foldl
      StateMachine.applyOp (StateMachine.init 2 1)).WellFormed :=
  ops_preserve_invariant 2 1 (by decide)
    [Op.add [(⟨0, 0, 1⟩ : StateTransition)], Op.doStep 0] (by decide)

/-- C5: for every wanted state ordinal in `[0, S)`, each of the two
descending dispatch searches triggers exactly the one notification identity
whose ordinal equals the wanted value (result `some`, so the `k = 0`
fatal-assertion base case, modelled as `none`, is never reached). -/
theorem dispatch_exact (S w : Nat) (hw : w < S) :
    enteredInternal w S = some (Notification.entered w) ∧
      exitedInternal w S = some (Notification.exited w) :=
  ⟨enteredInternal_eq hw, exitedInternal_eq hw⟩

/-- Witness for C5: with three states, the dispatch for wanted state `1`
yields exactly the entered-1 and exited-1 identities. -/
theorem dispatch_exact_witness :
    enteredInternal 1 3 = some (Notification.entered 1) ∧
      exitedInternal 1 3 = some (Notification.exited 1) :=
  dispatch_exact 3 1 (by decide)

/-- C6: a call containing an out-of-range triple takes the
configuration-error path — the success flag is `false`, never a silent
success — and the table is left in the possibly-partial state in which
exactly the entries processed before the first bad triple remain applied. -/
theorem addTransitions_out_of_range_rejected (m : StateMachine S I)
    (ts : List StateTransition) (h : ∃ t ∈ ts, t.inRange S I = false) :
    (m.addTransitions ts).2 = false ∧
      (m.addTransitions ts).1 =
        (ts.takeWhile (StateTransition.inRange S I)).foldl StateMachine.setCell m := by
  rw [addTransitions_eq_foldl]
  refine ⟨?_, rfl⟩
  rcases h with ⟨t, ht, hf⟩
  exact List.all_eq_false.mpr ⟨t, ht, by simp [hf]⟩

/-- Witness for C6: on a `1 × 1` machine, a call whose second triple has
`from = 1 ≥ S` reports the error and applies only the first triple. -/
theorem addTransitions_out_of_range_rejected_witness :
    (StateMachine.addTransitions (⟨[0], 0⟩ : StateMachine 1 1)
        [⟨0, 0, 0⟩, ⟨1, 0, 0⟩]).2 = false ∧
      (StateMachine.addTransitions (⟨[0], 0⟩ : StateMachine 1 1)
          [⟨0, 0, 0⟩, ⟨1, 0, 0⟩]).1 =
        (([⟨0, 0, 0⟩, ⟨1, 0, 0⟩] : List StateTransition).takeWhile
          (StateTransition.inRange 1 1)).foldl StateMachine.setCell ⟨[0], 0⟩ :=
  addTransitions_out_of_range_rejected ⟨[0], 0⟩ [⟨0, 0, 0⟩, ⟨1, 0, 0⟩] (by decide)

/-- C7: if one call supplies two in-range triples with the same
`(from, input)` key and different `to` values, and no later triple in the
same call reuses that key, the resulting table cell equals the `to` of the
later triple — last write wins, list order determines precedence. -/
theorem addTransitions_last_write_wins (m : StateMachine S I)
    (hlen : m.transitions.length = S * I)
    (l₁ l₂ l₃ : List StateTransition) (t₁ t₂ : StateTransition)
    (hv : ∀ t ∈ l₁ ++ t₁ :: l₂ ++ t₂ :: l₃, t.inRange S I = true)
    (_hkey : t₁.from_ = t₂.from_ ∧ t₁.input = t₂.input) (_hto : t₁.to_ ≠ t₂.to_)
    (hlast : ∀ u ∈ l₃, ¬(u.from_ = t₂.from_ ∧ u.input = t₂.input)) :
    (m.addTransitions (l₁ ++ t₁ :: l₂ ++ t₂ :: l₃)).1.tableAt t₂.from_ t₂.input
      = t₂.to_ := by
  have ht₂ := inRange_bounds (hv t₂ (by simp))
  have hk : t₂.from_ * I + t₂.input < m.transitions.length := by
    rw [hlen]
    exact rowIndex_lt ht₂.1 ht₂.2.1
  rw [addTransitions_fst_all_inRange _ hv m]
  unfold StateMachine.tableAt
  rw [List.getD_eq_getElem?_getD, foldl_setCell_getElem?]
  have hrev : (l₁ ++ t₁ :: l₂ ++ t₂ :: l₃).reverse
      = l₃.reverse ++ t₂ :: (l₂.reverse ++ t₁ :: l₁.reverse) := by
    simp
  rw [hrev, List.find?_append]
  have h₃ : l₃.reverse.find?
      (fun u => decide (u.from_ * I + u.input = t₂.from_ * I + t₂.input)) = none := by
    rw [List.find?_eq_none]
    intro u hu
    simp only [decide_eq_true_eq]
    intro hidx
    have hub := inRange_bounds (hv u (by simp [List.mem_reverse.mp hu]))
    rcases rowIndex_inj hub.2.1 ht₂.2.1 hidx with ⟨h1, h2⟩
    exact hlast u (List.mem_reverse.mp hu) ⟨h1, h2⟩
  rw [h₃]
  simp only [Option.none_or]
  rw [List.find?_cons_of_pos
    (p := fun u : StateTransition => decide (u.from_ * I + u.input = t₂.from_ * I + t₂.input))
    _ (decide_eq_true rfl)]
  show (if t₂.from_ * I + t₂.input < m.transitions.length
    then some t₂.to_ else none).getD 0 = t₂.to_
  rw [if_pos hk]
  rfl

/-- Witness for C7: on a `2 × 1` machine, the call `[(0,0)→0, (0,0)→1]`
leaves cell `(0, 0)` holding the later value `1`. -/
theorem addTransitions_last_write_wins_witness :
    (StateMachine.addTransitions (⟨[0, 1], 0⟩ : StateMachine 2 1)
      [⟨0, 0, 0⟩, ⟨0, 0, 1⟩]).1.tableAt 0 0 = 1 :=
  addTransitions_last_write_wins ⟨[0, 1], 0⟩ (by decide) [] [] [] ⟨0, 0, 0⟩ ⟨0, 0, 1⟩
    (by decide) (by decide) (by decide) (by decide)

/-- C8: applying a list of in-range triples with pairwise-distinct
`(from, input)` keys is order-independent: any permutation of the list yields
the same transition table. -/
theorem addTransitions_order_independent (m : StateMachine S I)
    (ts₁ ts₂ : List StateTransition) (hperm : ts₁.Perm ts₂)
    (hv : ∀ t ∈ ts₁, t.inRange S I = true)
    (hnd : ts₁.Pairwise fun a b => ¬(a.from_ = b.from_ ∧ a.input = b.input)) :
    (m.addTransitions ts₁).1.transitions = (m.addTransitions ts₂).1.transitions := by
  have hv₂ : ∀ t ∈ ts₂, t.inRange S I = true := fun t ht => hv t (hperm.mem_iff.mpr ht)
  rw [addTransitions_fst_all_inRange ts₁ hv m, addTransitions_fst_all_inRange ts₂ hv₂ m]
  apply List.ext_getElem?
  intro k
  rw [foldl_setCell_getElem? ts₁ m k, foldl_setCell_getElem? ts₂ m k]
  suffices h : ts₁.reverse.find? (fun u => decide (u.from_ * I + u.input = k))
      = ts₂.reverse.find? (fun u => decide (u.from_ * I + u.input = k)) by rw [h]
  have huniq : ∀ u ∈ ts₁, ∀ v ∈ ts₁,
      u.from_ * I + u.input = k → v.from_ * I + v.input = k → u = v := by
    intro u hu v hv' hku hkv
    by_contra hne
    have hR := List.Pairwise.forall
      (R := fun a b => ¬(a.from_ = b.from_ ∧ a.input = b.input))
      (fun a b hab hk => hab ⟨hk.1.symm, hk.2.symm⟩) hnd hu hv' hne
    exact hR (rowIndex_inj (inRange_bounds (hv u hu)).2.1
      (inRange_bounds (hv v hv')).2.1 (hku.trans hkv.symm))
  cases h₁ : ts₁.reverse.find? (fun u => decide (u.from_ * I + u.input = k)) with
  | none =>
      have hnone := List.find?_eq_none.mp h₁
      symm
      rw [List.find?_eq_none]
      intro x hx
      exact hnone x (List.mem_reverse.mpr (hperm.mem_iff.mpr (List.mem_reverse.mp hx)))
  | some u =>
      have hfs₁ := List.find?_some h₁
      have hpu : u.from_ * I + u.input = k := of_decide_eq_true hfs₁
      have hmu : u ∈ ts₁ := List.mem_reverse.mp (List.mem_of_find?_eq_some h₁)
      cases h₂ : ts₂.reverse.find? (fun u => decide (u.from_ * I + u.input = k)) with
      | none =>
          exact absurd (decide_eq_true hpu) (List.find?_eq_none.mp h₂ u
            (List.mem_reverse.mpr (hperm.mem_iff.mp hmu)))
      | some v =>
          have hfs₂ := List.find?_some h₂
          have hpv : v.from_ * I + v.input = k := of_decide_eq_true hfs₂
          have hmv : v ∈ ts₁ := hperm.mem_iff.mpr (List.mem_reverse.mp
            (List.mem_of_find?_eq_some h₂))
          rw [huniq u hmu v hmv hpu hpv]

/-- Witness for C8: swapping two distinct-key triples on a `2 × 1` machine
yields the same table. -/
theorem addTransitions_order_independent_witness :
    (StateMachine.addTransitions (⟨[0, 1], 0⟩ : StateMachine 2 1)
        [⟨0, 0, 1⟩, ⟨1, 0, 0⟩]).1.transitions =
      (StateMachine.addTransitions (⟨[0, 1], 0⟩ : StateMachine 2 1)
        [⟨1, 0, 0⟩, ⟨0, 0, 1⟩]).1.transitions :=
  addTransitions_order_independent ⟨[0, 1], 0⟩ [⟨0, 0, 1⟩, ⟨1, 0, 0⟩]
    [⟨1, 0, 0⟩, ⟨0, 0, 1⟩] (by decide) (by decide) (by decide)

/-- C9: an in-range `addTransitions` call leaves every table cell whose
`(from, input)` key does not occur among the supplied triples unchanged, and
never changes the current state. -/
theorem addTransitions_frame (m : StateMachine S I) (ts : List StateTransition)
    (hv : ∀ t ∈ ts, t.inRange S I = true) (f i : Nat) (hi : i < I)
    (hkey : ∀ t ∈ ts, ¬(t.from_ = f ∧ t.input = i)) :
    (m.addTransitions ts).1.transitions[f * I + i]? = m.transitions[f * I + i]? ∧
      (m.addTransitions ts).1.current = m.current := by
  refine ⟨?_, addTransitions_fst_current ts m⟩
  rw [addTransitions_fst_all_inRange ts hv m, foldl_setCell_getElem? ts m]
  have hnone : ts.reverse.find?
      (fun u => decide (u.from_ * I + u.input = f * I + i)) = none := by
    rw [List.find?_eq_none]
    intro u hu
    simp only [decide_eq_true_eq]
    intro hidx
    have hub := inRange_bounds (hv u (List.mem_reverse.mp hu))
    rcases rowIndex_inj hub.2.1 hi hidx with ⟨h1, h2⟩
    exact hkey u (List.mem_reverse.mp hu) ⟨h1, h2⟩
  rw [hnone]

/-- Witness for C9: configuring cell `(0, 0)` on a `2 × 2` machine leaves
cell `(1, 1)` and the current state untouched. -/
theorem addTransitions_frame_witness :
    (StateMachine.addTransitions (⟨[0, 0, 1, 1], 0⟩ : StateMachine 2 2)
        [⟨0, 0, 1⟩]).1.transitions[1 * 2 + 1]? =
      (⟨[0, 0, 1, 1], 0⟩ : StateMachine 2 2).transitions[1 * 2 + 1]? ∧
      (StateMachine.addTransitions (⟨[0, 0, 1, 1], 0⟩ : StateMachine 2 2)
        [⟨0, 0, 1⟩]).1.current = (⟨[0, 0, 1, 1], 0⟩ : StateMachine 2 2).current :=
  addTransitions_frame ⟨[0, 0, 1, 1], 0⟩ [⟨0, 0, 1⟩] (by decide) 1 1 (by decide)
    (by decide)

/-- C10: `addTransitions` applies exactly the maximal in-range prefix of the
supplied list — when the list contains an out-of-range triple, processing
stops there, so neither the first invalid triple nor anything after it
(in range or not) is applied — and the success flag is the conjunction of
all range checks. -/
theorem addTransitions_stops_at_first_invalid (m : StateMachine S I)
    (ts : List StateTransition) :
    m.addTransitions ts =
      ((ts.takeWhile (StateTransition.inRange S I)).foldl StateMachine.setCell m,
        ts.all (StateTransition.inRange S I)) :=
  addTransitions_eq_foldl ts m

end Corrade
